import Mathlib

/-!
Shallow embedding of the uncertainty-propagation engine of the flux-tool
repository: the beamline-focusing shift/covariance pipeline
(beam_focusing_systematics.py), the hadron-production sample covariance and
flux weights (hadron_production_systematics.py), the principal-component
compression (principal_component_analysis.py), the total-covariance assembly
(flux_systematics_analysis.py) and the range-integrated uncertainty helpers
(uncertainty.py, helpers.py).

Machine floats are modelled by exact rationals; where IEEE special values
(NaN, infinities) are semantically relevant (pandas division without an
explicit zero-guard) the codomain FloatVal makes them explicit.  Eigensolver
output (numpy.linalg.eigh) is modelled as given arrays about which theorems
assume exactly the decomposition property the solver guarantees.
-/

set_option maxRecDepth 4000

/-- Horn polarity, the first level of the flavor-energy index. -/
inductive HornPolarity
  | fhc
  | rhc
  deriving DecidableEq, Repr

/-- Neutrino flavor (column neutrino_mode of the tidy table). -/
inductive NeutrinoMode
  | nue
  | nuebar
  | numu
  | numubar
  deriving DecidableEq, Fintype, Repr

/-- Result of a pandas/numpy floating division: a finite rational or an IEEE
special value.  Division of a nonzero numerator by zero yields an infinity,
of zero by zero yields NaN. -/
inductive FloatVal
  | finite (q : ℚ)
  | posInf
  | negInf
  | nan
  deriving DecidableEq, Repr

/-- Unguarded float division as performed by pandas Series division. -/
def divF (a b : ℚ) : FloatVal :=
  if b ≠ 0 then .finite (a / b)
  else if 0 < a then .posInf
  else if a < 0 then .negInf
  else .nan

/-- pandas fillna(0): replaces NaN by 0 and leaves every other value, the
infinities included, unchanged. -/
def fillna (v : FloatVal) : FloatVal :=
  match v with
  | .nan => .finite 0
  | x => x

/-- HadronProductionSystematics.ppfx_flux_weights: the corrected
total-category mean flux divided by the nominal unweighted flux, with
fillna(0) applied to the quotient. -/
def ppfx_flux_weights {ι : Type} (total_correction nominal : ι → ℚ) (x : ι) : FloatVal :=
  fillna (divF (total_correction x) (nominal x))

/-- extract_statistical_uncertainties (uncertainty.py): the nominal table
columns flux and stat_uncert are both multiplied row-wise by the flux
weights; with normalized=True the weighted stat_uncert column is divided by
the weighted flux column. -/
def extract_statistical_uncertainties {ι : Type}
    (nomFlux nomStat w : ι → ℚ) (normalized : Bool) (x : ι) : FloatVal :=
  let statW := nomStat x * w x
  let fluxW := nomFlux x * w x
  if normalized then divF statW fluxW else .finite statW

/-- Sum of all entries of a covariance sub-block (cov.sum().sum()). -/
def entrySum {m : ℕ} (cov : Fin m → Fin m → ℚ) : ℚ :=
  ∑ i, ∑ j, cov i j

/-- flux_uncertainty (uncertainty.py): sqrt of the summed covariance block
divided by the squared total flux. -/
noncomputable def flux_uncertainty {m : ℕ} (cov : Fin m → Fin m → ℚ) (total_flux : ℚ) : ℝ :=
  Real.sqrt ((entrySum cov / total_flux ^ 2 : ℚ) : ℝ)

/-- Sum of the covariance block of an ordered flavor pair, after the stack /
swaplevel / groupby reordering of ratio_uncertainty. -/
def blockSum {m : ℕ} (cov : NeutrinoMode × Fin m → NeutrinoMode × Fin m → ℚ)
    (nu1 nu2 : NeutrinoMode) : ℚ :=
  ∑ i, ∑ j, cov (nu1, i) (nu2, j)

/-- Membership test nu in [nue, nuebar] of ratio_uncertainty. -/
def isNueFamily : NeutrinoMode → Bool
  | .nue => true
  | .nuebar => true
  | _ => false

/-- Membership test nu in [numu, numubar] of ratio_uncertainty. -/
def isNumuFamily : NeutrinoMode → Bool
  | .numu => true
  | .numubar => true
  | _ => false

/-- One iteration of the accumulation loop of ratio_uncertainty: the branch
selects the coefficient and the reciprocal flux factor for the block of the
ordered pair (nu1, nu2), s being the summed block. -/
def pairTerm (A B : ℚ) (nu1 nu2 : NeutrinoMode) (s : ℚ) : ℚ :=
  if isNueFamily nu1 && isNueFamily nu2 then 1 * s * (A ^ 2)⁻¹
  else if isNumuFamily nu1 && isNumuFamily nu2 then 1 * s * (B ^ 2)⁻¹
  else (-1) * s * (1 / (A * B))

/-- ratio_uncertainty (uncertainty.py): the loop accumulates one term per
ordered flavor pair present in the reordered covariance and the result is
the square root of the accumulated total. -/
noncomputable def ratio_uncertainty {m : ℕ}
    (cov : NeutrinoMode × Fin m → NeutrinoMode × Fin m → ℚ) (A B : ℚ) : ℝ :=
  Real.sqrt ((∑ nu1, ∑ nu2, pairTerm A B nu1 nu2 (blockSum cov nu1 nu2) : ℚ) : ℝ)

/-- The spec formula for the flavor-ratio variance, written from the words of
the claim: same-family blocks with coefficient +1 scaled by the reciprocal
squared family flux, cross-family blocks with coefficient -1 scaled by the
reciprocal product, every ordered orientation of a cross pair contributing. -/
def ratio_variance_spec {m : ℕ}
    (cov : NeutrinoMode × Fin m → NeutrinoMode × Fin m → ℚ) (A B : ℚ) : ℚ :=
  (1 / A ^ 2) *
      (blockSum cov .nue .nue + blockSum cov .nue .nuebar +
        blockSum cov .nuebar .nue + blockSum cov .nuebar .nuebar) +
    (1 / B ^ 2) *
      (blockSum cov .numu .numu + blockSum cov .numu .numubar +
        blockSum cov .numubar .numu + blockSum cov .numubar .numubar) -
    (1 / (A * B)) *
      (blockSum cov .nue .numu + blockSum cov .numu .nue +
        blockSum cov .nue .numubar + blockSum cov .numubar .nue +
        blockSum cov .nuebar .numu + blockSum cov .numu .nuebar +
        blockSum cov .nuebar .numubar + blockSum cov .numubar .nuebar)

/-- calculate_correlation_matrix (helpers.py): divide the covariance by the
outer product of the square roots of its diagonal, with the numpy where
guard emitting 0 wherever that outer product is 0. -/
noncomputable def calculate_correlation_matrix {n : ℕ}
    (C : Fin n → Fin n → ℝ) (i j : Fin n) : ℝ :=
  if Real.sqrt (C i i) * Real.sqrt (C j j) ≠ 0 then
    C i j / (Real.sqrt (C i i) * Real.sqrt (C j j))
  else 0

/-- Quadratic form of a matrix, used to state positive semidefiniteness. -/
def quadForm {n : ℕ} (C : Fin n → Fin n → ℝ) (x : Fin n → ℝ) : ℝ :=
  ∑ i, ∑ j, x i * C i j * x j

/-- Positive semidefinite: symmetric with a nonnegative quadratic form. -/
def IsPSD {n : ℕ} (C : Fin n → Fin n → ℝ) : Prop :=
  (∀ i j, C i j = C j i) ∧ ∀ x, 0 ≤ quadForm C x

/-! ### Principal component analysis (principal_component_analysis.py)

numpy.linalg.eigh returns eigenvalues in ascending order together with a
matrix whose columns are the eigenvectors; PCA.fit reverses both so that the
largest eigenvalue comes first.  The solver output is modelled as a value
vector and a matrix of column eigenvectors; IsEigh states the decomposition
property the solver guarantees for its input. -/

/-- Eigenvalues after the descending reversal of PCA.fit. -/
def eigDesc {n : ℕ} (eval : Fin n → ℚ) (i : Fin n) : ℚ :=
  eval i.rev

/-- Column eigenvectors after the descending reversal of PCA.fit
(entry at row j of column i). -/
def evecDesc {n : ℕ} (evec : Fin n → Fin n → ℚ) (j i : Fin n) : ℚ :=
  evec j i.rev

/-- fractional_eigenvalues: each reversed eigenvalue divided by the sum. -/
def fractional_eigenvalues {n : ℕ} (eval : Fin n → ℚ) (i : Fin n) : ℚ :=
  eigDesc eval i / ∑ k, eigDesc eval k

/-- cumulative_sum: numpy cumsum of the fractional eigenvalues, so the entry
at i sums the fractional eigenvalues of all positions up to and including i. -/
def cumulative_sum {n : ℕ} (eval : Fin n → ℚ) (i : Fin n) : ℚ :=
  ∑ k ∈ Finset.univ.filter (· ≤ i), fractional_eigenvalues eval k

/-- selected_components: the retention mask
(cumulative_sum < threshold) AND (eigenvalue > 0). -/
def selected_components {n : ℕ} (eval : Fin n → ℚ) (threshold : ℚ) (i : Fin n) : Prop :=
  cumulative_sum eval i < threshold ∧ 0 < eigDesc eval i

instance {n : ℕ} (eval : Fin n → ℚ) (t : ℚ) (i : Fin n) :
    Decidable (selected_components eval t i) := by
  unfold selected_components
  infer_instance

/-- new_covariance_matrix: the reconstruction
eigenvectors_retained @ diag(eigenvalues_retained) @ eigenvectors_retained.T,
whose (j, k) entry sums eigenvalue times the two eigenvector components over
the retained columns. -/
def new_covariance_matrix {n : ℕ} (eval : Fin n → ℚ) (evec : Fin n → Fin n → ℚ)
    (threshold : ℚ) (j k : Fin n) : ℚ :=
  ∑ i ∈ Finset.univ.filter (fun i => selected_components eval threshold i),
    eigDesc eval i * evecDesc evec j i * evecDesc evec k i

/-- The guarantee of numpy.linalg.eigh for a symmetric input: the matrix
equals V diag(w) V transposed, entrywise. -/
def IsEigh {n : ℕ} (C : Fin n → Fin n → ℚ) (eval : Fin n → ℚ)
    (evec : Fin n → Fin n → ℚ) : Prop :=
  ∀ j k, C j k = ∑ i, eval i * evec j i * evec k i

/-! ### Beam focusing systematics (beam_focusing_systematics.py) -/

/-- Run identifier of a beamline configuration sample. -/
abbrev RunId := ℕ

/-- The flavor-energy bin index: horn polarity, neutrino flavor, bin label
(bin labels are 1-based, bin b spanning edges b-1 to b). -/
abbrev BIdx := HornPolarity × NeutrinoMode × ℕ

/-- The hand-enumerated beam systematic categories (keys of _run_id_map). -/
inductive BeamCategory
  | beam_power
  | horn_current_plus
  | horn1_x
  | horn1_y
  | beam_spot
  | water_layer
  | beam_shift_x
  | beam_shift_y_plus
  | beam_shift_y_minus
  | beam_div
  deriving DecidableEq, Fintype, Repr

/-- A category maps to a single run or to a pair of runs. -/
inductive RunSpec
  | single (r : RunId)
  | paired (a b : RunId)
  deriving DecidableEq, Repr

/-- The hard-coded _run_id_map of BeamFocusingSystematics. -/
def run_id_map : BeamCategory → RunSpec
  | .beam_power => .single 1
  | .horn_current_plus => .single 8
  | .horn1_x => .paired 10 11
  | .horn1_y => .paired 12 13
  | .beam_spot => .paired 14 16
  | .water_layer => .paired 21 22
  | .beam_shift_x => .paired 24 25
  | .beam_shift_y_plus => .single 26
  | .beam_shift_y_minus => .single 27
  | .beam_div => .single 32

/-- numpy argmax of the boolean array edges >= e: the position of the first
edge at or above e, and 0 when no edge qualifies. -/
def argmaxGe (edges : List ℚ) (e : ℚ) : ℕ :=
  let i := edges.findIdx (fun x => decide (e ≤ x))
  if i = edges.length then 0 else i

/-- energy_to_bin_slice: the pair of positions bounding the energy window
inside the numu bin-edge array. -/
def energy_to_bin_slice (edges : List ℚ) (elow ehigh : ℚ) : ℕ × ℕ :=
  (argmaxGe edges elow, argmaxGe edges ehigh)

/-- Membership of a bin label in the pandas loc slice built from
energy_to_bin_slice: label-based slicing includes both endpoints. -/
def inWindow (edges : List ℚ) (elow ehigh : ℚ) (b : ℕ) : Prop :=
  (energy_to_bin_slice edges elow ehigh).1 ≤ b ∧
    b ≤ (energy_to_bin_slice edges elow ehigh).2

instance (edges : List ℚ) (elow ehigh : ℚ) (b : ℕ) :
    Decidable (inWindow edges elow ehigh b) := by
  unfold inWindow
  infer_instance

/-- The unsmoothed per-run absolute shift: run flux minus the flux of the
nominal run 15 (flux_shifts before selection, smoothing off). -/
def raw_shift (beamFlux : RunId → BIdx → ℚ) (r : RunId) (x : BIdx) : ℚ :=
  beamFlux r x - beamFlux 15 x

/-- apply_systematic_selection acting on an absolute shift table S (the shift
table may or may not have been smoothed first; zeroing is applied after):
runs 21 and 22 are multiplied by zero on the bins of the [1, 20] window and
run 32 on the bins of the [0, 1] window. -/
def apply_systematic_selection (edges : List ℚ) (S : RunId → BIdx → ℚ)
    (r : RunId) (x : BIdx) : ℚ :=
  if (r = 21 ∨ r = 22) ∧ inWindow edges 1 20 x.2.2 then 0
  else if r = 32 ∧ inWindow edges 0 1 x.2.2 then 0
  else S r x

/-- beam_systematic_shifts (absolute scale): a category mapped to a pair of
runs averages the two selected shifts with factor 0.5, a category mapped to
a single run takes that shift unchanged. -/
def beam_systematic_shifts (edges : List ℚ) (S : RunId → BIdx → ℚ)
    (cat : BeamCategory) (x : BIdx) : ℚ :=
  match run_id_map cat with
  | .single r => apply_systematic_selection edges S r x
  | .paired a b =>
      (1 / 2) *
        (apply_systematic_selection edges S a x + apply_systematic_selection edges S b x)

/-- covariance_matrices of BeamFocusingSystematics (absolute scale): the
outer product of the absolute category shift vector with itself. -/
def beam_covariance_matrices (edges : List ℚ) (S : RunId → BIdx → ℚ)
    (cat : BeamCategory) (x y : BIdx) : ℚ :=
  beam_systematic_shifts edges S cat x * beam_systematic_shifts edges S cat y

/-- total_covariance_matrix of BeamFocusingSystematics (absolute scale): the
sum of the per-category covariances over every category other than
beam_power. -/
def beam_total_covariance_matrix (edges : List ℚ) (S : RunId → BIdx → ℚ)
    (x y : BIdx) : ℚ :=
  ∑ cat ∈ Finset.univ.filter (· ≠ BeamCategory.beam_power),
    beam_covariance_matrices edges S cat x y

/-! ### Hadron production sample covariance
(hadron_production_systematics.py) -/

/-- Mean of a quantity over the universe axis. -/
def universe_mean {N : ℕ} {ι : Type} (xs : Fin N → ι → ℚ) (a : ι) : ℚ :=
  (∑ u, xs u a) / N

/-- pandas groupby cov with the default ddof = 1, NaN entries (fewer than two
universes) replaced by 0 by the fillna(0) that follows. -/
def sample_covariance {N : ℕ} {ι : Type} (xs : Fin N → ι → ℚ) (a b : ι) : ℚ :=
  if 2 ≤ N then
    (∑ u, (xs u a - universe_mean xs a) * (xs u b - universe_mean xs b)) / ((N : ℚ) - 1)
  else 0

/-! ### Total covariance assembly (flux_systematics_analysis.py) -/

/-- rescale_matrix with fractional=True: multiply entrywise by the outer
product of the corrected mean flux with itself. -/
def rescale_matrix {ι : Type} (flux : ι → ℚ) (M : ι → ι → ℚ) (x y : ι) : ℚ :=
  M x y * (flux x * flux y)

/-- stat_uncert_matrix: the diagonal matrix of squared absolute statistical
uncertainties. -/
def stat_uncert_matrix {ι : Type} [DecidableEq ι] (s : ι → ℚ) (x y : ι) : ℚ :=
  if x = y then s x ^ 2 else 0

/-- total_covariance_matrix of FluxSystematicsAnalysis: the rescaled PCA
covariance plus the statistical covariance, plus, when the beam systematics
are initialized, the beam total covariance and the beam_power per-category
covariance. -/
def total_covariance_matrix {ι : Type} [DecidableEq ι] (beamInit : Bool)
    (flux : ι → ℚ) (pcaM : ι → ι → ℚ) (s : ι → ℚ) (btot bpow : ι → ι → ℚ)
    (x y : ι) : ℚ :=
  if beamInit then
    rescale_matrix flux pcaM x y + stat_uncert_matrix s x y + btot x y + bpow x y
  else
    rescale_matrix flux pcaM x y + stat_uncert_matrix s x y

/-! ### Concrete instances used by witnesses and counterexamples -/

/-- Bin edges 0, 1/2, 1, 20, 30: four 1-based bins, the [1, 20] slice
covering labels 2 to 3 and the [0, 1] slice covering labels 0 to 2. -/
def edgesW : List ℚ :=
  [0, 1 / 2, 1, 20, 30]

/-- A concrete flavor-energy bin. -/
def xW : BIdx :=
  (HornPolarity.fhc, NeutrinoMode.numu, 1)

/-- A concrete constant shift table. -/
def constShift : RunId → BIdx → ℚ :=
  fun _ _ => 3

/-- Concrete beam fluxes whose runs 21 and 22 differ from nominal at the
lowest-energy bin only. -/
def beamFluxW : RunId → BIdx → ℚ :=
  fun r x =>
    if r = 21 ∧ x = xW then 5
    else if r = 22 ∧ x = xW then 3
    else 0

/-- Concrete shift table touching only the beam_power run 1. -/
def powerShift : RunId → BIdx → ℚ :=
  fun r x => if r = 1 ∧ x = xW then 1 else 0

/-- Concrete 2-bin covariance matrix diag(2, 1) for the PCA claims. -/
def pcaCovW : Fin 2 → Fin 2 → ℚ :=
  ![![2, 0], ![0, 1]]

/-- Its eigh output eigenvalues, in ascending order. -/
def pcaEvalW : Fin 2 → ℚ :=
  ![1, 2]

/-- Its eigh output eigenvector matrix: column 0 is the eigenvector of
eigenvalue 1, column 1 that of eigenvalue 2. -/
def pcaEvecW : Fin 2 → Fin 2 → ℚ :=
  ![![0, 1], ![1, 0]]

/-- One-bin all-ones real covariance matrix. -/
def onesMatW : Fin 1 → Fin 1 → ℝ :=
  fun _ _ => 1

/-- One-bin rational covariance block with single entry 4. -/
def covFourW : Fin 1 → Fin 1 → ℚ :=
  fun _ _ => 4

/-- All-ones flavor-by-bin covariance with one energy bin per flavor. -/
def onesCovW : NeutrinoMode × Fin 1 → NeutrinoMode × Fin 1 → ℚ :=
  fun _ _ => 1

/-- Constant-one corrected mean flux. -/
def fluxOneW : BIdx → ℚ :=
  fun _ => 1

/-- All-zero absolute statistical uncertainties. -/
def sZeroW : BIdx → ℚ :=
  fun _ => 0

/-- All-zero eigensolver eigenvalues on one component. -/
def zeroEvalW : Fin 1 → ℚ :=
  fun _ => 0

/-- All-zero eigensolver eigenvector matrix on one component. -/
def zeroEvecW : Fin 1 → Fin 1 → ℚ :=
  fun _ _ => 0

/-- Position map flattening the flavor-energy index into the single PCA row. -/
def posW : BIdx → Fin 1 :=
  fun _ => 0

/-! ## Theorems -/

/-- Helper: the [1, 20] window of the witness edges covers labels 2 to 3. -/
theorem edgesW_water_slice : energy_to_bin_slice edgesW 1 20 = (2, 3) := by
  norm_num [energy_to_bin_slice, argmaxGe, edgesW, List.findIdx_cons]

/-- Helper: the [0, 1] window of the witness edges covers labels 0 to 2. -/
theorem edgesW_div_slice : energy_to_bin_slice edgesW 0 1 = (0, 2) := by
  norm_num [energy_to_bin_slice, argmaxGe, edgesW, List.findIdx_cons]

/-- Helper: bin 2 lies inside the [1, 20] slice of the witness edges. -/
theorem edgesW_water_mem : inWindow edgesW 1 20 2 := by
  rw [inWindow, edgesW_water_slice]
  exact ⟨by norm_num, by norm_num⟩

/-- Helper: bin 2 lies inside the [0, 1] slice of the witness edges. -/
theorem edgesW_div_mem : inWindow edgesW 0 1 2 := by
  rw [inWindow, edgesW_div_slice]
  exact ⟨by norm_num, by norm_num⟩

/-- Helper: bin 1 lies outside the [1, 20] slice of the witness edges. -/
theorem edgesW_water_not_mem : ¬ inWindow edgesW 1 20 1 := by
  rw [inWindow, edgesW_water_slice]
  intro h
  exact absurd h.1 (by norm_num)

/-- Claim C4 (code bug evidence): at a bin where the nominal unweighted flux
is 0 while the corrected total-category mean flux is 1, ppfx_flux_weights
yields positive infinity, not 0: the fillna(0) guard replaces only the NaN
of a 0 / 0 division and lets the infinity of a nonzero / 0 division through. -/
theorem claim_C4_weight_inf_at_zero_nominal :
    ppfx_flux_weights (fun _ : BIdx => 1) (fun _ => 0) xW = FloatVal.posInf ∧
      FloatVal.posInf ≠ FloatVal.finite 0 := by
  decide

/-- Claim C10: with normalized=True, at every bin where the nominal flux and
the flux weight are both nonzero, the extracted fractional statistical
uncertainty equals stat_uncert divided by flux of the nominal table: the
weight multiplies numerator and denominator and cancels exactly, so the
result does not depend on the weights. -/
theorem claim_C10_weight_cancellation {ι : Type} (nomFlux nomStat w : ι → ℚ)
    (x : ι) (hf : nomFlux x ≠ 0) (hw : w x ≠ 0) :
    extract_statistical_uncertainties nomFlux nomStat w true x =
      FloatVal.finite (nomStat x / nomFlux x) := by
  have hne : nomFlux x * w x ≠ 0 := mul_ne_zero hf hw
  have hdiv : nomStat x * w x / (nomFlux x * w x) = nomStat x / nomFlux x := by
    field_simp
    ring
  simp [extract_statistical_uncertainties, divF, hne, hdiv]

/-- Witness for claim C10 at a concrete input. -/
theorem claim_C10_witness :
    extract_statistical_uncertainties (fun _ : ℕ => 2) (fun _ => 3) (fun _ => 5)
        true 0 = FloatVal.finite (3 / 2) :=
  claim_C10_weight_cancellation (fun _ : ℕ => 2) (fun _ => 3) (fun _ => 5) 0
    (by norm_num) (by norm_num)

/-- Claim C7: flux_uncertainty returns the square root of the summed
covariance block divided by the squared total flux; at the one-entry block
containing 4 with total flux 2 the result is exactly 1. -/
theorem claim_C7_flux_uncertainty {m : ℕ} (cov : Fin m → Fin m → ℚ) (F : ℚ)
    (hF : 0 < F) :
    flux_uncertainty cov F = Real.sqrt ((entrySum cov : ℝ) / (F : ℝ) ^ 2) ∧
      flux_uncertainty covFourW 2 = 1 := by
  constructor
  · unfold flux_uncertainty
    push_cast
    rfl
  · have h4 : entrySum covFourW = 4 := by
      simp [entrySum, covFourW, Fin.sum_univ_one]
    rw [flux_uncertainty, h4]
    norm_num [Real.sqrt_one]

/-- Witness for claim C7 at the concrete block of the spec scenario. -/
theorem claim_C7_witness :
    flux_uncertainty covFourW 2 =
        Real.sqrt ((entrySum covFourW : ℝ) / ((2 : ℚ) : ℝ) ^ 2) ∧
      flux_uncertainty covFourW 2 = 1 :=
  claim_C7_flux_uncertainty covFourW 2 (by norm_num)

/-- Claim C5: a category mapped to a pair of run ids averages the two runs
with factor one half, a category mapped to a single run id copies that run;
in particular for horn1_x, mapped to runs 10 and 11 (never zeroed), the
category shift is half the sum of the two raw flux differences from the
nominal run 15. -/
theorem claim_C5_pair_averaging (edges : List ℚ) (S : RunId → BIdx → ℚ)
    (x : BIdx) :
    (∀ cat a b, run_id_map cat = .paired a b →
      beam_systematic_shifts edges S cat x =
        (1 / 2) *
          (apply_systematic_selection edges S a x +
            apply_systematic_selection edges S b x)) ∧
    (∀ cat r, run_id_map cat = .single r →
      beam_systematic_shifts edges S cat x =
        apply_systematic_selection edges S r x) ∧
    (∀ beamFlux : RunId → BIdx → ℚ,
      beam_systematic_shifts edges (raw_shift beamFlux) .horn1_x x =
        (1 / 2) *
          ((beamFlux 10 x - beamFlux 15 x) + (beamFlux 11 x - beamFlux 15 x))) := by
  refine ⟨?_, ?_, ?_⟩
  · intro cat a b h
    unfold beam_systematic_shifts
    rw [h]
  · intro cat r h
    unfold beam_systematic_shifts
    rw [h]
  · intro bf
    show (1 / 2) *
        (apply_systematic_selection edges (raw_shift bf) 10 x +
          apply_systematic_selection edges (raw_shift bf) 11 x) = _
    norm_num [apply_systematic_selection, raw_shift]

/-- Witness for claim C5 at a concrete pair category. -/
theorem claim_C5_witness :
    beam_systematic_shifts edgesW constShift .horn1_x xW =
      (1 / 2) *
        (apply_systematic_selection edgesW constShift 10 xW +
          apply_systematic_selection edgesW constShift 11 xW) :=
  (claim_C5_pair_averaging edgesW constShift xW).1 .horn1_x 10 11 rfl

/-- Claim C3 (amended): the selection rule zeroes the water_layer runs 21
and 22 on every bin INSIDE the [1, 20] GeV slice and the beam_div run 32 on
every bin INSIDE the [0, 1] GeV slice, whatever the input shift table, and
the per-category covariance vanishes on every row and column of such a bin;
bins outside the window are left untouched. -/
theorem claim_C3_zeroing_inside_window (edges : List ℚ) (S : RunId → BIdx → ℚ)
    (p : HornPolarity) (f : NeutrinoMode) (b : ℕ) :
    (inWindow edges 1 20 b →
      beam_systematic_shifts edges S .water_layer (p, f, b) = 0 ∧
      ∀ y, beam_covariance_matrices edges S .water_layer (p, f, b) y = 0 ∧
        beam_covariance_matrices edges S .water_layer y (p, f, b) = 0) ∧
    (inWindow edges 0 1 b →
      beam_systematic_shifts edges S .beam_div (p, f, b) = 0 ∧
      ∀ y, beam_covariance_matrices edges S .beam_div (p, f, b) y = 0 ∧
        beam_covariance_matrices edges S .beam_div y (p, f, b) = 0) := by
  constructor
  · intro h
    have hs : beam_systematic_shifts edges S .water_layer (p, f, b) = 0 := by
      show (1 / 2) *
          (apply_systematic_selection edges S 21 (p, f, b) +
            apply_systematic_selection edges S 22 (p, f, b)) = 0
      simp [apply_systematic_selection, h]
    exact ⟨hs, fun y => by
      unfold beam_covariance_matrices
      rw [hs]
      constructor <;> ring⟩
  · intro h
    have hs : beam_systematic_shifts edges S .beam_div (p, f, b) = 0 := by
      show apply_systematic_selection edges S 32 (p, f, b) = 0
      simp [apply_systematic_selection, h]
    exact ⟨hs, fun y => by
      unfold beam_covariance_matrices
      rw [hs]
      constructor <;> ring⟩

/-- Witness for claim C3: with edges 0, 1/2, 1, 20, 30, bin 2 lies in both
slices and both category shifts vanish there for a nowhere-zero shift table. -/
theorem claim_C3_witness :
    beam_systematic_shifts edgesW constShift .water_layer
        (HornPolarity.fhc, NeutrinoMode.numu, 2) = 0 ∧
      beam_systematic_shifts edgesW constShift .beam_div
        (HornPolarity.fhc, NeutrinoMode.numu, 2) = 0 :=
  ⟨((claim_C3_zeroing_inside_window edgesW constShift .fhc .numu 2).1
      edgesW_water_mem).1,
    ((claim_C3_zeroing_inside_window edgesW constShift .fhc .numu 2).2
      edgesW_div_mem).1⟩

/-- Counterexample to claim C3 as stated: bin 1 (energies 0 to 1/2 GeV, so
outside the [1, 20] window) is NOT zeroed for water_layer: with run 21
shifted by 5 and run 22 by 3 there, the category shift is 4 and the
covariance diagonal entry is 16, not 0. -/
theorem claim_C3_counterexample :
    ¬ inWindow edgesW 1 20 1 ∧
      beam_systematic_shifts edgesW (raw_shift beamFluxW) .water_layer xW = 4 ∧
      beam_systematic_shifts edgesW (raw_shift beamFluxW) .water_layer xW ≠ 0 ∧
      beam_covariance_matrices edgesW (raw_shift beamFluxW) .water_layer xW xW = 16 ∧
      beam_covariance_matrices edgesW (raw_shift beamFluxW) .water_layer xW xW ≠ 0 := by
  have hs : beam_systematic_shifts edgesW (raw_shift beamFluxW) .water_layer xW = 4 := by
    show (1 / 2) *
        (apply_systematic_selection edgesW (raw_shift beamFluxW) 21 xW +
          apply_systematic_selection edgesW (raw_shift beamFluxW) 22 xW) = 4
    rw [apply_systematic_selection, apply_systematic_selection]
    rw [if_neg (by exact fun h => edgesW_water_not_mem h.2),
      if_neg (by norm_num),
      if_neg (by exact fun h => edgesW_water_not_mem h.2),
      if_neg (by norm_num)]
    norm_num [raw_shift, beamFluxW, xW]
  have hc : beam_covariance_matrices edgesW (raw_shift beamFluxW) .water_layer xW xW = 16 := by
    rw [beam_covariance_matrices, hs]
    norm_num
  exact ⟨edgesW_water_not_mem, hs, by rw [hs]; norm_num, hc, by rw [hc]; norm_num⟩

/-- Helper: expansion of a sum over the four neutrino flavors. -/
theorem sum_neutrinoMode (f : NeutrinoMode → ℚ) :
    ∑ nu, f nu = f .nue + f .nuebar + f .numu + f .numubar := by
  have h : (Finset.univ : Finset NeutrinoMode) =
      {.nue, .nuebar, .numu, .numubar} :=
    Finset.ext fun x => ⟨fun _ => by cases x <;> simp, fun _ => Finset.mem_univ x⟩
  rw [h, Finset.sum_insert (by simp), Finset.sum_insert (by simp),
    Finset.sum_insert (by simp), Finset.sum_singleton]
  ring

/-- Helper: block sums of a symmetric covariance are orientation invariant. -/
theorem blockSum_symm {m : ℕ}
    (cov : NeutrinoMode × Fin m → NeutrinoMode × Fin m → ℚ)
    (hsym : ∀ a b, cov a b = cov b a) (nu1 nu2 : NeutrinoMode) :
    blockSum cov nu1 nu2 = blockSum cov nu2 nu1 := by
  unfold blockSum
  calc ∑ i, ∑ j, cov (nu1, i) (nu2, j)
      = ∑ i, ∑ j, cov (nu2, j) (nu1, i) := by
        simp_rw [hsym]
    _ = ∑ j, ∑ i, cov (nu2, j) (nu1, i) := Finset.sum_comm

/-- Claim C6: ratio_uncertainty is the square root of the variance combining
same-family blocks with coefficient +1 over the squared family flux and
cross-family blocks with coefficient -1 over the product of the fluxes, each
ordered orientation contributing; for a symmetric covariance the
cross-family contribution equals twice the sum over the four unordered
cross pairs. -/
theorem claim_C6_ratio_uncertainty {m : ℕ}
    (cov : NeutrinoMode × Fin m → NeutrinoMode × Fin m → ℚ) (A B : ℚ) :
    ratio_uncertainty cov A B = Real.sqrt ((ratio_variance_spec cov A B : ℚ) : ℝ) ∧
    ((∀ a b, cov a b = cov b a) →
      blockSum cov .nue .numu + blockSum cov .numu .nue +
          blockSum cov .nue .numubar + blockSum cov .numubar .nue +
          blockSum cov .nuebar .numu + blockSum cov .numu .nuebar +
          blockSum cov .nuebar .numubar + blockSum cov .numubar .nuebar =
        2 * (blockSum cov .nue .numu + blockSum cov .nue .numubar +
          blockSum cov .nuebar .numu + blockSum cov .nuebar .numubar)) := by
  constructor
  · have h : (∑ nu1, ∑ nu2, pairTerm A B nu1 nu2 (blockSum cov nu1 nu2)) =
        ratio_variance_spec cov A B := by
      rw [sum_neutrinoMode]
      simp only [sum_neutrinoMode, pairTerm, isNueFamily, isNumuFamily,
        Bool.true_and, Bool.false_and, Bool.and_true, Bool.and_false,
        if_true, if_false, ratio_variance_spec]
      norm_num
      ring
    rw [ratio_uncertainty, h]
  · intro hsym
    rw [blockSum_symm cov hsym .numu .nue, blockSum_symm cov hsym .numubar .nue,
      blockSum_symm cov hsym .numu .nuebar, blockSum_symm cov hsym .numubar .nuebar]
    ring

/-- Witness for claim C6 at an everywhere-one (hence symmetric) covariance
with one energy bin per flavor. -/
theorem claim_C6_witness :
    ratio_uncertainty onesCovW 3 4 =
        Real.sqrt ((ratio_variance_spec onesCovW 3 4 : ℚ) : ℝ) ∧
      blockSum onesCovW .nue .numu + blockSum onesCovW .numu .nue +
          blockSum onesCovW .nue .numubar + blockSum onesCovW .numubar .nue +
          blockSum onesCovW .nuebar .numu + blockSum onesCovW .numu .nuebar +
          blockSum onesCovW .nuebar .numubar + blockSum onesCovW .numubar .nuebar =
        2 * (blockSum onesCovW .nue .numu + blockSum onesCovW .nue .numubar +
          blockSum onesCovW .nuebar .numu + blockSum onesCovW .nuebar .numubar) :=
  ⟨(claim_C6_ratio_uncertainty onesCovW 3 4).1,
    (claim_C6_ratio_uncertainty onesCovW 3 4).2 (fun _ _ => rfl)⟩

/-- Helper: evaluation of the quadratic form at a vector supported on the
two coordinates i and j, with value t at i and 1 at j. -/
theorem quadForm_two_point {n : ℕ} (C : Fin n → Fin n → ℝ)
    (hsym : ∀ a b, C a b = C b a) {i j : Fin n} (hij : i ≠ j) (t : ℝ) :
    quadForm C (fun k => if k = i then t else if k = j then 1 else 0) =
      C i i * (t * t) + (2 * C i j) * t + C j j := by
  set x : Fin n → ℝ := fun k => if k = i then t else if k = j then 1 else 0 with hx
  have hx0 : ∀ k, k ≠ i → k ≠ j → x k = 0 := by
    intro k h1 h2
    simp [hx, h1, h2]
  have hxi : x i = t := by simp [hx]
  have hxj : x j = 1 := by simp [hx, hij.symm]
  have hmem : ({i, j} : Finset (Fin n)) ⊆ Finset.univ := Finset.subset_univ _
  have houter : ∀ k ∈ Finset.univ, k ∉ ({i, j} : Finset (Fin n)) →
      (∑ l, x k * C k l * x l) = 0 := by
    intro k _ hk
    simp only [Finset.mem_insert, Finset.mem_singleton, not_or] at hk
    exact Finset.sum_eq_zero fun l _ => by rw [hx0 k hk.1 hk.2]; ring
  have hinner : ∀ k, (∑ l, x k * C k l * x l) =
      ∑ l ∈ ({i, j} : Finset (Fin n)), x k * C k l * x l := by
    intro k
    refine (Finset.sum_subset hmem ?_).symm
    intro l _ hl
    simp only [Finset.mem_insert, Finset.mem_singleton, not_or] at hl
    rw [hx0 l hl.1 hl.2]
    ring
  rw [quadForm, ← Finset.sum_subset hmem houter]
  rw [Finset.sum_congr rfl fun k _ => hinner k]
  rw [Finset.sum_pair hij, Finset.sum_pair hij, Finset.sum_pair hij]
  rw [hxi, hxj, hsym j i]
  ring

/-- Helper: for a positive semidefinite matrix, every entry squared is at
most the product of the two diagonal entries. -/
theorem psd_entry_sq_le {n : ℕ} (C : Fin n → Fin n → ℝ) (h : IsPSD C)
    (i j : Fin n) : C i j ^ 2 ≤ C i i * C j j := by
  obtain ⟨hsym, hq⟩ := h
  by_cases hij : i = j
  · subst hij
    rw [pow_two]
  · have key : ∀ t : ℝ, 0 ≤ C i i * (t * t) + (2 * C i j) * t + C j j := by
      intro t
      have := hq (fun k => if k = i then t else if k = j then 1 else 0)
      rwa [quadForm_two_point C hsym hij t] at this
    have hd := discrim_le_zero key
    rw [discrim] at hd
    nlinarith [hd]

/-- Claim C8: for a covariance with nonnegative diagonal, the correlation
diagonal entry is exactly 1 at every bin of nonzero variance and exactly 0
at every bin of zero variance; when the covariance is additionally positive
semidefinite, every correlation entry lies between -1 and 1. -/
theorem claim_C8_correlation_matrix {n : ℕ} (C : Fin n → Fin n → ℝ)
    (hd : ∀ i, 0 ≤ C i i) :
    (∀ i, C i i ≠ 0 → calculate_correlation_matrix C i i = 1) ∧
    (∀ i, C i i = 0 → calculate_correlation_matrix C i i = 0) ∧
    (IsPSD C → ∀ i j, -1 ≤ calculate_correlation_matrix C i j ∧
      calculate_correlation_matrix C i j ≤ 1) := by
  refine ⟨?_, ?_, ?_⟩
  · intro i hi
    have houter : Real.sqrt (C i i) * Real.sqrt (C i i) = C i i :=
      Real.mul_self_sqrt (hd i)
    simp [calculate_correlation_matrix, houter, hi]
  · intro i hi
    simp [calculate_correlation_matrix, hi]
  · intro hpsd i j
    by_cases hs : Real.sqrt (C i i) * Real.sqrt (C j j) ≠ 0
    · have hsi : 0 < Real.sqrt (C i i) :=
        lt_of_le_of_ne (Real.sqrt_nonneg _) (Ne.symm (left_ne_zero_of_mul hs))
      have hsj : 0 < Real.sqrt (C j j) :=
        lt_of_le_of_ne (Real.sqrt_nonneg _) (Ne.symm (right_ne_zero_of_mul hs))
      have hspos : 0 < Real.sqrt (C i i) * Real.sqrt (C j j) := mul_pos hsi hsj
      have habs : |C i j| ≤ Real.sqrt (C i i) * Real.sqrt (C j j) := by
        calc |C i j| = Real.sqrt (C i j ^ 2) := (Real.sqrt_sq_eq_abs _).symm
          _ ≤ Real.sqrt (C i i * C j j) :=
            Real.sqrt_le_sqrt (psd_entry_sq_le C hpsd i j)
          _ = Real.sqrt (C i i) * Real.sqrt (C j j) := Real.sqrt_mul (hd i) _
      have hbound : |calculate_correlation_matrix C i j| ≤ 1 := by
        rw [calculate_correlation_matrix, if_pos hs, abs_div,
          abs_of_pos hspos]
        exact div_le_one_of_le habs hspos.le
      exact abs_le.mp hbound
    · rw [calculate_correlation_matrix, if_neg hs]
      norm_num

/-- Witness for claim C8 at a one-bin all-ones covariance. -/
theorem claim_C8_witness :
    calculate_correlation_matrix onesMatW 0 0 = 1 :=
  (claim_C8_correlation_matrix onesMatW (fun _ => zero_le_one)).1 0 one_ne_zero

/-- Claim C2 (amended): for an eigensolver output satisfying the
decomposition property with every eigenvalue strictly positive, any
threshold STRICTLY ABOVE 1 (such as the class default 2) retains every
component and the reconstruction equals the input matrix exactly; the
cumulative sum never exceeds 1, so every retention test passes. -/
theorem claim_C2_pca_round_trip {n : ℕ} (C : Fin n → Fin n → ℚ)
    (eval : Fin n → ℚ) (evec : Fin n → Fin n → ℚ) (t : ℚ)
    (hspec : IsEigh C eval evec) (hpos : ∀ i, 0 < eval i) (ht : 1 < t) :
    (∀ i, selected_components eval t i) ∧
      ∀ j k, new_covariance_matrix eval evec t j k = C j k := by
  have hpos2 : ∀ k : Fin n, 0 < eigDesc eval k := fun k => hpos k.rev
  have hsel : ∀ i, selected_components eval t i := by
    intro i
    have hS : 0 < ∑ k, eigDesc eval k :=
      Finset.sum_pos (fun k _ => hpos2 k) ⟨i, Finset.mem_univ i⟩
    have hcum : cumulative_sum eval i ≤ 1 := by
      rw [cumulative_sum]
      simp_rw [fractional_eigenvalues]
      rw [← Finset.sum_div]
      refine div_le_one_of_le ?_ hS.le
      exact Finset.sum_le_sum_of_subset_of_nonneg (Finset.filter_subset _ _)
        (fun k _ _ => (hpos2 k).le)
    exact ⟨lt_of_le_of_lt hcum ht, hpos2 i⟩
  refine ⟨hsel, fun j k => ?_⟩
  rw [new_covariance_matrix, Finset.filter_true_of_mem fun i _ => hsel i,
    hspec j k]
  exact Fintype.sum_equiv (Function.Involutive.toPerm Fin.rev fun i => i.rev_rev)
    _ _ (fun i => rfl)

/-- Witness for claim C2 at the concrete matrix diag(2, 1) with threshold 2. -/
theorem claim_C2_witness :
    (∀ i, selected_components pcaEvalW 2 i) ∧
      ∀ j k, new_covariance_matrix pcaEvalW pcaEvecW 2 j k = pcaCovW j k :=
  claim_C2_pca_round_trip pcaCovW pcaEvalW pcaEvecW 2
    (by
      intro j k
      fin_cases j <;> fin_cases k <;>
        norm_num [pcaCovW, pcaEvalW, pcaEvecW, Fin.sum_univ_two])
    (by intro i; fin_cases i <;> norm_num [pcaEvalW])
    (by norm_num)

/-- Counterexample to claim C2 as stated: for the matrix diag(2, 1), a valid
eigensolver output with strictly positive eigenvalues, threshold = 1 does
NOT retain every component: the cumulative fractional eigenvalue sum of the
last component equals exactly 1, which fails the strict test
cumulative_sum < threshold, so that component is dropped. -/
theorem claim_C2_counterexample :
    IsEigh pcaCovW pcaEvalW pcaEvecW ∧ (∀ i, 0 < pcaEvalW i) ∧
      ¬ ((∀ i, selected_components pcaEvalW 1 i) ∧
        ∀ j k, new_covariance_matrix pcaEvalW pcaEvecW 1 j k = pcaCovW j k) := by
  have hr0 : (0 : Fin 2).rev = 1 := rfl
  have hr1 : (1 : Fin 2).rev = 0 := rfl
  refine ⟨?_, ?_, ?_⟩
  · intro j k
    fin_cases j <;> fin_cases k <;>
      norm_num [pcaCovW, pcaEvalW, pcaEvecW, Fin.sum_univ_two]
  · intro i
    fin_cases i <;> norm_num [pcaEvalW]
  · rintro ⟨hsel, -⟩
    have h1 := (hsel 1).1
    have hcs : cumulative_sum pcaEvalW (1 : Fin 2) = 1 := by
      have hfilter : (Finset.univ.filter (· ≤ (1 : Fin 2))) = Finset.univ := by
        refine Finset.filter_true_of_mem fun k _ => ?_
        fin_cases k <;> decide
      rw [cumulative_sum, hfilter, Fin.sum_univ_two]
      norm_num [fractional_eigenvalues, eigDesc, hr0, hr1, pcaEvalW,
        Fin.sum_univ_two]
    rw [hcs] at h1
    exact absurd h1 (lt_irrefl 1)

/-- Helper: the PCA reconstruction matrix is symmetric. -/
theorem new_covariance_matrix_symm {n : ℕ} (eval : Fin n → ℚ)
    (evec : Fin n → Fin n → ℚ) (t : ℚ) (j k : Fin n) :
    new_covariance_matrix eval evec t j k = new_covariance_matrix eval evec t k j := by
  unfold new_covariance_matrix
  exact Finset.sum_congr rfl fun i _ => by ring

/-- Helper: the PCA reconstruction diagonal is nonnegative, the retention
mask keeping only strictly positive eigenvalues. -/
theorem new_covariance_matrix_diag_nonneg {n : ℕ} (eval : Fin n → ℚ)
    (evec : Fin n → Fin n → ℚ) (t : ℚ) (j : Fin n) :
    0 ≤ new_covariance_matrix eval evec t j j := by
  unfold new_covariance_matrix
  refine Finset.sum_nonneg fun i hi => ?_
  have hpos : 0 < eigDesc eval i := ((Finset.mem_filter.mp hi).2).2
  rw [mul_assoc]
  exact mul_nonneg hpos.le (mul_self_nonneg _)

/-- Helper: each per-category beam covariance is symmetric with nonnegative
diagonal, being an outer product of a shift vector with itself. -/
theorem beam_covariance_matrices_symm_nonneg (edges : List ℚ)
    (S : RunId → BIdx → ℚ) (cat : BeamCategory) (x y : BIdx) :
    beam_covariance_matrices edges S cat x y =
        beam_covariance_matrices edges S cat y x ∧
      0 ≤ beam_covariance_matrices edges S cat x x :=
  ⟨mul_comm _ _, mul_self_nonneg _⟩

/-- Helper: the beam total covariance is symmetric with nonnegative
diagonal. -/
theorem beam_total_covariance_matrix_symm_nonneg (edges : List ℚ)
    (S : RunId → BIdx → ℚ) (x y : BIdx) :
    beam_total_covariance_matrix edges S x y =
        beam_total_covariance_matrix edges S y x ∧
      0 ≤ beam_total_covariance_matrix edges S x x := by
  constructor
  · exact Finset.sum_congr rfl fun cat _ =>
      (beam_covariance_matrices_symm_nonneg edges S cat x y).1
  · exact Finset.sum_nonneg fun cat _ =>
      (beam_covariance_matrices_symm_nonneg edges S cat x x).2

/-- Claim C9: every covariance matrix the engine builds is symmetric with a
nonnegative diagonal: per-category beam covariances (outer products), the
beam total covariance (their sum without beam_power), the hadron
per-category sample covariance, the PCA reconstruction, and the assembled
total covariance in either beam mode. -/
theorem claim_C9_covariance_invariants :
    (∀ (edges : List ℚ) (S : RunId → BIdx → ℚ) (cat : BeamCategory) (x y : BIdx),
      beam_covariance_matrices edges S cat x y =
          beam_covariance_matrices edges S cat y x ∧
        0 ≤ beam_covariance_matrices edges S cat x x) ∧
    (∀ (edges : List ℚ) (S : RunId → BIdx → ℚ) (x y : BIdx),
      beam_total_covariance_matrix edges S x y =
          beam_total_covariance_matrix edges S y x ∧
        0 ≤ beam_total_covariance_matrix edges S x x) ∧
    (∀ (N : ℕ) (ι : Type) (xs : Fin N → ι → ℚ) (a b : ι),
      sample_covariance xs a b = sample_covariance xs b a ∧
        0 ≤ sample_covariance xs a a) ∧
    (∀ (n : ℕ) (eval : Fin n → ℚ) (evec : Fin n → Fin n → ℚ) (t : ℚ)
        (j k : Fin n),
      new_covariance_matrix eval evec t j k =
          new_covariance_matrix eval evec t k j ∧
        0 ≤ new_covariance_matrix eval evec t j j) ∧
    (∀ (beamInit : Bool) (flux : BIdx → ℚ) (n : ℕ) (eval : Fin n → ℚ)
        (evec : Fin n → Fin n → ℚ) (t : ℚ) (pos : BIdx → Fin n) (s : BIdx → ℚ)
        (edges : List ℚ) (S : RunId → BIdx → ℚ) (x y : BIdx),
      total_covariance_matrix beamInit flux
          (fun a b => new_covariance_matrix eval evec t (pos a) (pos b)) s
          (beam_total_covariance_matrix edges S)
          (beam_covariance_matrices edges S .beam_power) x y =
        total_covariance_matrix beamInit flux
          (fun a b => new_covariance_matrix eval evec t (pos a) (pos b)) s
          (beam_total_covariance_matrix edges S)
          (beam_covariance_matrices edges S .beam_power) y x ∧
      0 ≤ total_covariance_matrix beamInit flux
          (fun a b => new_covariance_matrix eval evec t (pos a) (pos b)) s
          (beam_total_covariance_matrix edges S)
          (beam_covariance_matrices edges S .beam_power) x x) := by
  refine ⟨beam_covariance_matrices_symm_nonneg,
    beam_total_covariance_matrix_symm_nonneg, ?_, ?_, ?_⟩
  · intro N ι xs a b
    constructor
    · unfold sample_covariance
      split
      · exact congrArg (· / ((N : ℚ) - 1))
          (Finset.sum_congr rfl fun u _ => mul_comm _ _)
      · rfl
    · unfold sample_covariance
      split
      · rename_i hN
        have hN1 : 0 ≤ (N : ℚ) - 1 := by
          have : (2 : ℚ) ≤ (N : ℚ) := by exact_mod_cast hN
          linarith
        exact div_nonneg
          (Finset.sum_nonneg fun u _ => mul_self_nonneg _) hN1
      · exact le_refl 0
  · intro n eval evec t j k
    exact ⟨new_covariance_matrix_symm eval evec t j k,
      new_covariance_matrix_diag_nonneg eval evec t j⟩
  · intro beamInit flux n eval evec t pos s edges S x y
    have hr : ∀ u v : BIdx,
        rescale_matrix flux
            (fun a b => new_covariance_matrix eval evec t (pos a) (pos b)) u v =
          rescale_matrix flux
            (fun a b => new_covariance_matrix eval evec t (pos a) (pos b)) v u := by
      intro u v
      show new_covariance_matrix eval evec t (pos u) (pos v) * (flux u * flux v) =
        new_covariance_matrix eval evec t (pos v) (pos u) * (flux v * flux u)
      rw [new_covariance_matrix_symm]
      ring
    have hr0 : 0 ≤ rescale_matrix flux
        (fun a b => new_covariance_matrix eval evec t (pos a) (pos b)) x x := by
      show 0 ≤ new_covariance_matrix eval evec t (pos x) (pos x) * (flux x * flux x)
      exact mul_nonneg (new_covariance_matrix_diag_nonneg eval evec t (pos x))
        (mul_self_nonneg _)
    have hst : ∀ u v : BIdx, stat_uncert_matrix s u v = stat_uncert_matrix s v u := by
      intro u v
      unfold stat_uncert_matrix
      rcases eq_or_ne u v with h | h
      · subst h; rfl
      · rw [if_neg h, if_neg (Ne.symm h)]
    have hst0 : 0 ≤ stat_uncert_matrix s x x := by
      unfold stat_uncert_matrix
      rw [if_pos rfl]
      positivity
    constructor
    · unfold total_covariance_matrix
      cases beamInit
      · simp only [Bool.false_eq_true, if_false]
        rw [hr, hst]
      · simp only [if_true]
        rw [hr, hst,
          (beam_total_covariance_matrix_symm_nonneg edges S x y).1,
          (beam_covariance_matrices_symm_nonneg edges S .beam_power x y).1]
    · unfold total_covariance_matrix
      cases beamInit
      · simp only [Bool.false_eq_true, if_false]
        exact add_nonneg hr0 hst0
      · simp only [if_true]
        exact add_nonneg (add_nonneg (add_nonneg hr0 hst0)
          (beam_total_covariance_matrix_symm_nonneg edges S x x).2)
          (beam_covariance_matrices_symm_nonneg edges S .beam_power x x).2

/-- Claim C1 (amended): with beam data present the assembled total absolute
covariance is the sum of FOUR terms: the rescaled PCA-compressed hadron
covariance, the statistical covariance, the beam total covariance (which
excludes beam_power), and the beam_power per-category covariance added back
as a separate fourth term; without beam data only the first two terms are
summed.  The beam total covariance equals the sum over all categories minus
the beam_power covariance. -/
theorem claim_C1_total_assembly :
    (∀ (ι : Type) (inst : DecidableEq ι) (flux : ι → ℚ) (pcaM : ι → ι → ℚ)
        (s : ι → ℚ) (btot bpow : ι → ι → ℚ) (x y : ι),
      total_covariance_matrix true flux pcaM s btot bpow x y =
        rescale_matrix flux pcaM x y + stat_uncert_matrix s x y +
          btot x y + bpow x y) ∧
    (∀ (ι : Type) (inst : DecidableEq ι) (flux : ι → ℚ) (pcaM : ι → ι → ℚ)
        (s : ι → ℚ) (btot bpow : ι → ι → ℚ) (x y : ι),
      total_covariance_matrix false flux pcaM s btot bpow x y =
        rescale_matrix flux pcaM x y + stat_uncert_matrix s x y) ∧
    (∀ (edges : List ℚ) (S : RunId → BIdx → ℚ) (x y : BIdx),
      beam_total_covariance_matrix edges S x y =
        (∑ cat, beam_covariance_matrices edges S cat x y) -
          beam_covariance_matrices edges S .beam_power x y) := by
  refine ⟨fun ι inst flux pcaM s btot bpow x y => rfl,
    fun ι inst flux pcaM s btot bpow x y => rfl, ?_⟩
  intro edges S x y
  rw [beam_total_covariance_matrix, Finset.filter_ne']
  exact Finset.sum_erase_eq_sub (Finset.mem_univ _)

/-- Helper: with the beam_power-only shift table, every run other than run 1
has zero selected shift at the witness bin. -/
theorem powerShift_apply_zero (r : RunId) (hr : r ≠ 1) :
    apply_systematic_selection edgesW powerShift r xW = 0 := by
  unfold apply_systematic_selection
  split_ifs <;> simp [powerShift, hr]

/-- Helper: with the beam_power-only shift table, every category other than
beam_power has zero shift at the witness bin. -/
theorem powerShift_category_zero (cat : BeamCategory) (hcat : cat ≠ .beam_power) :
    beam_systematic_shifts edgesW powerShift cat xW = 0 := by
  cases cat
  case beam_power => exact absurd rfl hcat
  all_goals
    simp only [beam_systematic_shifts, run_id_map]
    first
      | exact powerShift_apply_zero _ (by norm_num)
      | rw [powerShift_apply_zero _ (by norm_num),
          powerShift_apply_zero _ (by norm_num)]
        norm_num

/-- Counterexample to claim C1 as stated: with beam data present and a shift
present only on the beam_power run 1, the assembled total covariance entry
is 1 while the three-term sum of the claim (rescaled PCA + statistical +
beam total) is 0: the code adds the beam_power covariance as a fourth term. -/
theorem claim_C1_counterexample :
    total_covariance_matrix true fluxOneW
        (fun a b => new_covariance_matrix zeroEvalW zeroEvecW 1 (posW a) (posW b))
        sZeroW (beam_total_covariance_matrix edgesW powerShift)
        (beam_covariance_matrices edgesW powerShift .beam_power) xW xW = 1 ∧
      rescale_matrix fluxOneW
          (fun a b => new_covariance_matrix zeroEvalW zeroEvecW 1 (posW a) (posW b))
          xW xW +
        stat_uncert_matrix sZeroW xW xW +
        beam_total_covariance_matrix edgesW powerShift xW xW = 0 ∧
      total_covariance_matrix true fluxOneW
          (fun a b => new_covariance_matrix zeroEvalW zeroEvecW 1 (posW a) (posW b))
          sZeroW (beam_total_covariance_matrix edgesW powerShift)
          (beam_covariance_matrices edgesW powerShift .beam_power) xW xW ≠
        rescale_matrix fluxOneW
            (fun a b => new_covariance_matrix zeroEvalW zeroEvecW 1 (posW a) (posW b))
            xW xW +
          stat_uncert_matrix sZeroW xW xW +
          beam_total_covariance_matrix edgesW powerShift xW xW := by
  have hpca : new_covariance_matrix zeroEvalW zeroEvecW 1 (posW xW) (posW xW) = 0 := by
    rw [new_covariance_matrix, Finset.filter_false_of_mem, Finset.sum_empty]
    intro i _
    exact fun h => absurd h.2 (lt_irrefl 0)
  have hresc : rescale_matrix fluxOneW
      (fun a b => new_covariance_matrix zeroEvalW zeroEvecW 1 (posW a) (posW b))
      xW xW = 0 := by
    show new_covariance_matrix zeroEvalW zeroEvecW 1 (posW xW) (posW xW) *
      (fluxOneW xW * fluxOneW xW) = 0
    rw [hpca]
    ring
  have hstat : stat_uncert_matrix sZeroW xW xW = 0 := by
    rw [stat_uncert_matrix, if_pos rfl]
    norm_num [sZeroW]
  have htot : beam_total_covariance_matrix edgesW powerShift xW xW = 0 := by
    rw [beam_total_covariance_matrix]
    refine Finset.sum_eq_zero fun cat hcat => ?_
    rw [Finset.mem_filter] at hcat
    rw [beam_covariance_matrices, powerShift_category_zero cat hcat.2]
    ring
  have hpow : beam_covariance_matrices edgesW powerShift .beam_power xW xW = 1 := by
    have h1 : beam_systematic_shifts edgesW powerShift .beam_power xW = 1 := by
      show apply_systematic_selection edgesW powerShift 1 xW = 1
      rw [apply_systematic_selection, if_neg (by simp), if_neg (by simp)]
      simp [powerShift]
    rw [beam_covariance_matrices, h1]
    norm_num
  have h1 : total_covariance_matrix true fluxOneW
      (fun a b => new_covariance_matrix zeroEvalW zeroEvecW 1 (posW a) (posW b))
      sZeroW (beam_total_covariance_matrix edgesW powerShift)
      (beam_covariance_matrices edgesW powerShift .beam_power) xW xW = 1 := by
    show rescale_matrix fluxOneW _ xW xW + stat_uncert_matrix sZeroW xW xW +
      beam_total_covariance_matrix edgesW powerShift xW xW +
      beam_covariance_matrices edgesW powerShift .beam_power xW xW = 1
    rw [hresc, hstat, htot, hpow]
    norm_num
  have h0 : rescale_matrix fluxOneW
      (fun a b => new_covariance_matrix zeroEvalW zeroEvecW 1 (posW a) (posW b))
      xW xW + stat_uncert_matrix sZeroW xW xW +
      beam_total_covariance_matrix edgesW powerShift xW xW = 0 := by
    rw [hresc, hstat, htot]
    norm_num
  refine ⟨h1, h0, ?_⟩
  rw [h1, h0]
  norm_num
